import Mathlib

/-!
Verification development for the asic-miner-scanner core: a shallow
embedding of the range parser, scan pass, history buffers, per-device
refresh and the CSV recorder, with theorems about the properties the
design document states.

Rust strings are modelled as `List Char`; machine floats (`f64`) as exact
rationals `Rat`; fallible operations as `Option`/`Except`.  Wall-clock
values (timestamps, `Instant`) are threaded as explicit parameters.
-/

/-- Decimal digit character for a value below 10 (Rust's digit rendering). -/
def digitChar (n : Nat) : Char := Char.ofNat (48 + n)

/-- Numeric value of a digit string, most significant digit first
(the accumulator form Rust's integer parsing uses). -/
def digitsVal (s : List Char) : Nat :=
  s.foldl (fun acc c => acc * 10 + (c.toNat - 48)) 0

/-- Rust `str::split('.')`: the (possibly empty) fragments between
occurrences of the separator; the empty string yields one empty fragment. -/
def splitChar (sep : Char) : List Char → List (List Char)
  | [] => [[]]
  | c :: cs =>
    if c = sep then [] :: splitChar sep cs
    else
      match splitChar sep cs with
      | [] => [[c]]
      | p :: ps => (c :: p) :: ps

/-- Rust `str::rfind(sep)` followed by taking the slices before and after
the found position: splits at the last occurrence of `sep`, `none` when
`sep` does not occur. -/
def rsplitOnce (sep : Char) : List Char → Option (List Char × List Char)
  | [] => none
  | c :: cs =>
    match rsplitOnce sep cs with
    | some (b, a) => some (c :: b, a)
    | none => if c = sep then some ([], cs) else none

/-- Leading plus sign accepted by Rust's unsigned integer parsing. -/
def stripPlus (s : List Char) : List Char :=
  match s with
  | [] => []
  | c :: rest => if c = '+' then rest else c :: rest

/-- Rust `u8::from_str`: optional leading `+`, then at least one decimal
digit, value at most 255; `none` on any other input. -/
def parseU8 (s : List Char) : Option Nat :=
  let ds := stripPlus s
  if ds = [] then none
  else if ds.all Char.isDigit then
    if digitsVal ds ≤ 255 then some (digitsVal ds) else none
  else none

/-- Decimal rendering of a u8-sized value, as Rust's `Display` for `u8`
prints it (used only for values at most 255, where three digits suffice). -/
def decDigits (v : Nat) : List Char :=
  if v < 10 then [digitChar v]
  else if v < 100 then [digitChar (v / 10), digitChar (v % 10)]
  else [digitChar (v / 100), digitChar (v / 10 % 10), digitChar (v % 10)]

/-- `parse_ip_range` from `src/scanner.rs` (the method
`MinerScannerApp::parse_ip_range` in `src/main.rs` is textually the same):
split both inputs on dots, require four fragments each, require the first
three fragments to coincide textually, parse both last fragments as `u8`,
require start at most end, and format the canonical
`a.b.c.start-end` encoding from the original first three fragments and the
parsed last octets. -/
def parse_ip_range (start e : List Char) : Except String (List Char) :=
  match splitChar '.' start, splitChar '.' e with
  | [a0, a1, a2, a3], [b0, b1, b2, b3] =>
    if a0 = b0 ∧ a1 = b1 ∧ a2 = b2 then
      match parseU8 a3 with
      | none => Except.error "Invalid start IP address"
      | some s =>
        match parseU8 b3 with
        | none => Except.error "Invalid end IP address"
        | some e2 =>
          if s ≤ e2 then
            Except.ok (a0 ++ '.' :: a1 ++ '.' :: a2 ++ '.' :: decDigits s ++ '-' :: decDigits e2)
          else Except.error "Start IP must be less than or equal to end IP"
    else Except.error "IP ranges must be in the same subnet (first 3 octets must match)"
  | _, _ => Except.error "Invalid IP address format"

/-- `calculate_total_ips` from `src/scanner.rs`: locate the last dash, the
last dot before it, parse the two enclosed fragments as `u8`, and return
`end - start + 1` when `end >= start`; every failure path returns 0. -/
def calculate_total_ips (range : List Char) : Nat :=
  match rsplitOnce '-' range with
  | none => 0
  | some (before, after) =>
    match rsplitOnce '.' before with
    | none => 0
    | some (_, startStr) =>
      match parseU8 startStr, parseU8 after with
      | some s, some e => if s ≤ e then e - s + 1 else 0
      | _, _ => 0

/-- Checked u8 subtraction: `none` models the arithmetic-overflow panic of
a debug build (a release build wraps modulo 256 instead). -/
def u8Sub (a b : Nat) : Option Nat := if b ≤ a then some (a - b) else none

/-- Checked u8 addition, same overflow convention as `u8Sub`. -/
def u8Add (a b : Nat) : Option Nat := if a + b ≤ 255 then some (a + b) else none

/-- `MinerScannerApp::calculate_total_ips` from `src/main.rs`: same
parsing as the scanner-module version but it computes `end - start + 1`
directly in `u8` arithmetic with no `end >= start` guard, so the
subtraction (and the increment on a full 0-255 range) can overflow;
`none` models the resulting panic of a debug build. -/
def app_calculate_total_ips (range : List Char) : Option Nat :=
  match rsplitOnce '-' range with
  | none => some 0
  | some (before, after) =>
    match rsplitOnce '.' before with
    | none => some 0
    | some (_, startStr) =>
      match parseU8 startStr, parseU8 after with
      | some s, some e => (u8Sub e s).bind (fun d => u8Add d 1)
      | _, _ => some 0

/-- A well-formed dotted-address fragment in the sense of the design
document: nonempty, all decimal digits, value representable in 0..255. -/
abbrev isOctet (s : List Char) : Prop :=
  s ≠ [] ∧ (∀ c ∈ s, c.isDigit = true) ∧ digitsVal s ≤ 255

/-- A well-formed 4-octet address in the sense of the design document:
exactly four dot-separated fragments, each an octet. -/
def wellFormedAddr (s : List Char) : Bool :=
  match splitChar '.' s with
  | [a, b, c, d] => decide (isOctet a) && decide (isOctet b) && decide (isOctet c) && decide (isOctet d)
  | _ => false

/-! Facts about the character-list string operations. -/

lemma rsplitOnce_of_not_mem (sep : Char) (l : List Char) (h : sep ∉ l) :
    rsplitOnce sep l = none := by
  induction l with
  | nil => rfl
  | cons c cs ih =>
    have h1 : sep ∉ cs := fun hc => h (List.mem_cons_of_mem _ hc)
    have h2 : c ≠ sep := fun hc => h (hc ▸ List.mem_cons_self _ _)
    simp [rsplitOnce, ih h1, h2]

lemma rsplitOnce_append (sep : Char) (ys : List Char) (hys : sep ∉ ys) (xs : List Char) :
    rsplitOnce sep (xs ++ sep :: ys) = some (xs, ys) := by
  induction xs with
  | nil => simp [rsplitOnce, rsplitOnce_of_not_mem sep ys hys]
  | cons x xs ih => simp [rsplitOnce, ih]

lemma digitChar_isDigit {d : Nat} (h : d < 10) : (digitChar d).isDigit = true := by
  interval_cases d <;> decide

lemma digitChar_toNat {d : Nat} (h : d < 10) : (digitChar d).toNat = 48 + d := by
  interval_cases d <;> decide

lemma ne_plus_of_isDigit {c : Char} (h : c.isDigit = true) : c ≠ '+' := by
  intro hc; subst hc; exact absurd h (by decide)

lemma ne_dot_of_isDigit {c : Char} (h : c.isDigit = true) : c ≠ '.' := by
  intro hc; subst hc; exact absurd h (by decide)

lemma ne_dash_of_isDigit {c : Char} (h : c.isDigit = true) : c ≠ '-' := by
  intro hc; subst hc; exact absurd h (by decide)

lemma decDigits_all_digits {v : Nat} (h : v ≤ 255) :
    ∀ c ∈ decDigits v, c.isDigit = true := by
  intro c hc
  unfold decDigits at hc
  split at hc
  · simp only [List.mem_singleton] at hc
    exact hc ▸ digitChar_isDigit (by omega)
  · split at hc
    · simp only [List.mem_cons, List.mem_singleton, List.not_mem_nil, or_false] at hc
      rcases hc with hc | hc <;> exact hc ▸ digitChar_isDigit (by omega)
    · simp only [List.mem_cons, List.mem_singleton, List.not_mem_nil, or_false] at hc
      rcases hc with hc | hc | hc <;> exact hc ▸ digitChar_isDigit (by omega)

lemma digitsVal_decDigits {v : Nat} (h : v ≤ 255) : digitsVal (decDigits v) = v := by
  unfold decDigits digitsVal
  split
  · simp only [List.foldl, digitChar_toNat (show v < 10 by omega)]
    omega
  · split
    · simp only [List.foldl, digitChar_toNat (show v / 10 < 10 by omega),
        digitChar_toNat (show v % 10 < 10 by omega)]
      omega
    · simp only [List.foldl, digitChar_toNat (show v / 100 < 10 by omega),
        digitChar_toNat (show v / 10 % 10 < 10 by omega),
        digitChar_toNat (show v % 10 < 10 by omega)]
      omega

lemma decDigits_ne_nil (v : Nat) : decDigits v ≠ [] := by
  unfold decDigits
  split
  · simp
  · split <;> simp

lemma isOctet_decDigits {v : Nat} (h : v ≤ 255) : isOctet (decDigits v) :=
  ⟨decDigits_ne_nil v, decDigits_all_digits h, by rw [digitsVal_decDigits h]; exact h⟩

lemma parseU8_of_isOctet {s : List Char} (h : isOctet s) : parseU8 s = some (digitsVal s) := by
  obtain ⟨hne, hdig, hle⟩ := h
  cases s with
  | nil => exact absurd rfl hne
  | cons c cs =>
    have hc : c.isDigit = true := hdig c (List.mem_cons_self _ _)
    have hplus : c ≠ '+' := ne_plus_of_isDigit hc
    simp only [parseU8, stripPlus, if_neg hplus]
    rw [if_neg (by simp), if_pos, if_pos hle]
    simp only [List.all_eq_true]
    intro x hx
    exact hdig x hx

lemma parseU8_decDigits {v : Nat} (h : v ≤ 255) : parseU8 (decDigits v) = some v := by
  rw [parseU8_of_isOctet (isOctet_decDigits h), digitsVal_decDigits h]

lemma not_mem_decDigits_dot {v : Nat} (h : v ≤ 255) : '.' ∉ decDigits v := fun hm =>
  absurd (decDigits_all_digits h _ hm) (by decide)

lemma not_mem_decDigits_dash {v : Nat} (h : v ≤ 255) : '-' ∉ decDigits v := fun hm =>
  absurd (decDigits_all_digits h _ hm) (by decide)

/-- The canonical range encoding decodes back to its address count,
whatever the first-three-octet prefix holds. -/
lemma calculate_total_ips_canonical (p : List Char) {s e : Nat}
    (hs : s ≤ 255) (he : e ≤ 255) (hle : s ≤ e) :
    calculate_total_ips (p ++ '.' :: decDigits s ++ '-' :: decDigits e) = e - s + 1 := by
  have hshape : p ++ '.' :: decDigits s ++ '-' :: decDigits e
      = (p ++ '.' :: decDigits s) ++ '-' :: decDigits e := by
    simp [List.append_assoc]
  rw [hshape]
  unfold calculate_total_ips
  rw [rsplitOnce_append '-' (decDigits e) (not_mem_decDigits_dash he) (p ++ '.' :: decDigits s)]
  simp only
  rw [rsplitOnce_append '.' (decDigits s) (not_mem_decDigits_dot hs) p]
  simp only
  rw [parseU8_decDigits hs, parseU8_decDigits he]
  simp only [if_pos hle]

/-- C1: for every pair of well-formed 4-octet address strings whose first
three octets match and whose last octets satisfy start at most end,
`parse_ip_range` succeeds and `calculate_total_ips` of the returned
canonical range encoding equals end minus start plus one. -/
theorem parse_range_address_count
    (s t a0 a1 a2 a3 b0 b1 b2 b3 : List Char)
    (hs : splitChar '.' s = [a0, a1, a2, a3])
    (ht : splitChar '.' t = [b0, b1, b2, b3])
    (ha0 : isOctet a0) (ha1 : isOctet a1) (ha2 : isOctet a2) (ha3 : isOctet a3)
    (hb0 : isOctet b0) (hb1 : isOctet b1) (hb2 : isOctet b2) (hb3 : isOctet b3)
    (he0 : a0 = b0) (he1 : a1 = b1) (he2 : a2 = b2)
    (hle : digitsVal a3 ≤ digitsVal b3) :
    ∃ r, parse_ip_range s t = Except.ok r ∧
      calculate_total_ips r = digitsVal b3 - digitsVal a3 + 1 := by
  refine ⟨a0 ++ '.' :: a1 ++ '.' :: a2 ++ '.' :: decDigits (digitsVal a3)
      ++ '-' :: decDigits (digitsVal b3), ?_, ?_⟩
  · unfold parse_ip_range
    rw [hs, ht]
    simp only [if_pos (show a0 = b0 ∧ a1 = b1 ∧ a2 = b2 from ⟨he0, he1, he2⟩),
      parseU8_of_isOctet ha3, parseU8_of_isOctet hb3, if_pos hle]
  · have hshape : a0 ++ '.' :: a1 ++ '.' :: a2 ++ '.' :: decDigits (digitsVal a3)
        ++ '-' :: decDigits (digitsVal b3)
        = (a0 ++ '.' :: a1 ++ '.' :: a2) ++ '.' :: decDigits (digitsVal a3)
          ++ '-' :: decDigits (digitsVal b3) := by
      simp [List.append_assoc]
    rw [hshape]
    exact calculate_total_ips_canonical _ ha3.2.2 hb3.2.2 hle

/-- Witness for C1 at the documented example pair, with address count 256. -/
theorem parse_range_address_count_witness :
    ∃ r, parse_ip_range "10.0.81.0".toList "10.0.81.255".toList = Except.ok r ∧
      calculate_total_ips r = 256 := by
  obtain ⟨r, h1, h2⟩ := parse_range_address_count
    "10.0.81.0".toList "10.0.81.255".toList
    ['1', '0'] ['0'] ['8', '1'] ['0'] ['1', '0'] ['0'] ['8', '1'] ['2', '5', '5']
    (by decide) (by decide)
    (by decide) (by decide) (by decide) (by decide)
    (by decide) (by decide) (by decide) (by decide)
    (by decide) (by decide) (by decide) (by decide)
  exact ⟨r, h1, h2.trans (by decide)⟩

/-- Counterexample to C4 as stated: `"10.0.999.1"` is not a well-formed
4-octet address (999 exceeds 255), yet `parse_ip_range` returns a range
encoding for it instead of the malformed-address error. -/
theorem parse_accepts_malformed_cex :
    parse_ip_range "10.0.999.1".toList "10.0.999.5".toList
      = Except.ok "10.0.999.1-5".toList ∧
    wellFormedAddr "10.0.999.1".toList = false :=
  ⟨by rfl, by rfl⟩

/-- C4 (amended): `parse_ip_range` reports the malformed-address error
exactly when an argument does not have four dot-separated components, and
it validates only the last octet of each argument (after the textual
subnet comparison of the first three components); malformedness confined
to the first three components is not detected. -/
theorem parse_malformed_errors (s t : List Char) :
    ((splitChar '.' s).length ≠ 4 ∨ (splitChar '.' t).length ≠ 4 →
      parse_ip_range s t = Except.error "Invalid IP address format") ∧
    (∀ a0 a1 a2 a3 b0 b1 b2 b3 : List Char,
      splitChar '.' s = [a0, a1, a2, a3] → splitChar '.' t = [b0, b1, b2, b3] →
      a0 = b0 → a1 = b1 → a2 = b2 →
      (parseU8 a3 = none →
        parse_ip_range s t = Except.error "Invalid start IP address") ∧
      (∀ v, parseU8 a3 = some v → parseU8 b3 = none →
        parse_ip_range s t = Except.error "Invalid end IP address")) := by
  constructor
  · intro h
    unfold parse_ip_range
    rcases h4s : splitChar '.' s with _ | ⟨a0, _ | ⟨a1, _ | ⟨a2, _ | ⟨a3, _ | r5⟩⟩⟩⟩ <;>
      rcases h4t : splitChar '.' t with _ | ⟨b0, _ | ⟨b1, _ | ⟨b2, _ | ⟨b3, _ | r6⟩⟩⟩⟩ <;>
      first
        | rfl
        | (rw [h4s, h4t] at h; simp at h)
  · intro a0 a1 a2 a3 b0 b1 b2 b3 hsp htp h0 h1 h2
    constructor
    · intro hnone
      unfold parse_ip_range
      rw [hsp, htp]
      simp only [if_pos (show a0 = b0 ∧ a1 = b1 ∧ a2 = b2 from ⟨h0, h1, h2⟩), hnone]
    · intro v hv hnone
      unfold parse_ip_range
      rw [hsp, htp]
      simp only [if_pos (show a0 = b0 ∧ a1 = b1 ∧ a2 = b2 from ⟨h0, h1, h2⟩), hv, hnone]

/-- Witness for the amended C4 on concrete malformed inputs of each kind. -/
theorem parse_malformed_errors_witness :
    parse_ip_range "10.0.81".toList "10.0.81.5".toList
      = Except.error "Invalid IP address format" ∧
    parse_ip_range "10.0.81.ab".toList "10.0.81.5".toList
      = Except.error "Invalid start IP address" ∧
    parse_ip_range "10.0.81.5".toList "10.0.81.ab".toList
      = Except.error "Invalid end IP address" :=
  ⟨(parse_malformed_errors "10.0.81".toList "10.0.81.5".toList).1 (Or.inl (by decide)),
   ((parse_malformed_errors "10.0.81.ab".toList "10.0.81.5".toList).2
      ['1', '0'] ['0'] ['8', '1'] ['a', 'b'] ['1', '0'] ['0'] ['8', '1'] ['5']
      (by decide) (by decide) rfl rfl rfl).1 (by rfl),
   (((parse_malformed_errors "10.0.81.5".toList "10.0.81.ab".toList).2
      ['1', '0'] ['0'] ['8', '1'] ['5'] ['1', '0'] ['0'] ['8', '1'] ['a', 'b']
      (by decide) (by decide) rfl rfl rfl).2) 5 (by rfl) (by rfl)⟩

/-- C9 (code bug): the scanner-module `calculate_total_ips` is total and
returns 0 on an inverted range, but the `MinerScannerApp` duplicate
computes `end - start + 1` in unguarded `u8` arithmetic: on the inverted
range it overflows (debug-build panic, modelled as `none`), and even on the
valid full range `10.0.81.0-255` the `+ 1` overflows `u8`. -/
theorem calc_total_ips_u8_overflow :
    calculate_total_ips "10.0.81.9-3".toList = 0 ∧
    app_calculate_total_ips "10.0.81.9-3".toList = none ∧
    calculate_total_ips "10.0.81.0-255".toList = 256 ∧
    app_calculate_total_ips "10.0.81.0-255".toList = none :=
  ⟨by rfl, by rfl, by rfl, by rfl⟩

/-! Data model.  Structures from `src/models.rs`; the external `asic_rs`
reading (`MinerData`) is modelled with the fields this program consumes.
Machine floats are exact rationals; the unit conversions of the external
quantity types (hashrate units, radians-per-second to RPM) are modelled as
identities on the stored magnitudes, and `Instant`/wall-clock values are
threaded as explicit parameters. -/

structure Hashboard where
  hashrate : Option Rat
  board_temperature : Option Rat
  deriving DecidableEq

structure FanInfo where
  rpm : Option Rat
  deriving DecidableEq

structure MinerData where
  mac : Option (List Char)
  hostname : Option (List Char)
  firmware_version : Option (List Char)
  hashrate : Option Rat
  wattage : Option Rat
  efficiency : Option Rat
  average_temperature : Option Rat
  hashboards : List Hashboard
  fans : List FanInfo
  light_flashing : Option Bool
  is_mining : Bool
  deriving DecidableEq

/-- `MinerInfo` from `src/models.rs`: display fields plus the retained
full reading. -/
structure MinerInfo where
  ip : List Char
  hostname : List Char
  model : List Char
  firmware_version : List Char
  control_board : List Char
  hashrate : List Char
  wattage : List Char
  efficiency : List Char
  temperature : List Char
  fan_speed : List Char
  pool : List Char
  worker : List Char
  light_flashing : Bool
  full_data : Option MinerData
  deriving DecidableEq

/-- `HashratePoint` from `src/models.rs`. -/
structure HashratePoint where
  timestamp : Rat
  hashrate : Rat
  deriving DecidableEq

/-- `ScanProgress` from `src/models.rs`; `scan_start_time : Option Instant`
is modelled as an optional timestamp. -/
structure ScanProgress where
  scanning : Bool
  current_ip : List Char
  total_ips : Nat
  scanned_ips : Nat
  found_miners : Nat
  scan_start_time : Option Rat
  total_ranges : Nat
  scanned_ranges : Nat
  scan_duration_secs : Nat
  deriving DecidableEq

/-- `RecordingState` from `src/models.rs`; the `start_time : Instant`
field is wall-clock state not observable by any claim and is omitted. -/
structure RecordingState where
  file_path : List Char
  row_count : Nat
  is_recording : Bool
  deriving DecidableEq

/-- `MAX_HISTORY_POINTS` from `src/models.rs`. -/
def MAX_HISTORY_POINTS : Nat := 288

/-- A fine-grained metrics sample, the `MetricsHistory` element type from
`src/models.rs`: timestamp, total hashrate, power, per-board hashrates,
average temperature, per-board temperatures. -/
abbrev MetricsPoint := Rat × Rat × Rat × List Rat × Rat × List Rat

/-! Address-keyed maps.  Rust's `HashMap<String, V>` is modelled as an
association list with pairwise-distinct keys; `insertKV` is
`HashMap::insert` (replace the entry for an existing key, append a new
key), `findV` is `HashMap::get`, `eraseKey` is `HashMap::remove`. -/

def insertKV {α : Type} : List (List Char × α) → List Char → α → List (List Char × α)
  | [], k, v => [(k, v)]
  | p :: ps, k, v => if p.1 = k then (k, v) :: ps else p :: insertKV ps k v

def findV {α : Type} (k : List Char) (m : List (List Char × α)) : Option α :=
  (m.find? (fun p => decide (p.1 = k))).map Prod.snd

def eraseKey {α : Type} (m : List (List Char × α)) (k : List Char) : List (List Char × α) :=
  m.filter (fun p => !decide (p.1 = k))

/-- `HashMap::entry(k).or_default()` followed by an in-place update. -/
def updateEntry {α : Type} : List (List Char × α) → List Char → α → (α → α) → List (List Char × α)
  | [], k, d, f => [(k, f d)]
  | p :: ps, k, d, f => if p.1 = k then (p.1, f p.2) :: ps else p :: updateEntry ps k d f

/-! History buffers. -/

/-- Coarse per-device history append from `src/scanner.rs` (and the same
code in `src/main.rs`): push, then drain from the front down to
`MAX_HISTORY_POINTS` when over capacity. -/
def pushCoarse (h : List HashratePoint) (p : HashratePoint) : List HashratePoint :=
  if MAX_HISTORY_POINTS < (h ++ [p]).length then
    (h ++ [p]).drop ((h ++ [p]).length - MAX_HISTORY_POINTS)
  else h ++ [p]

/-- Fine per-device history append from `src/ui/detail.rs`: push, then
remove the front element when over 9000 points. -/
def pushFine (h : List MetricsPoint) (p : MetricsPoint) : List MetricsPoint :=
  if 9000 < (h ++ [p]).length then (h ++ [p]).drop 1 else h ++ [p]

/-! The scan pass, `scan_ranges` from `src/scanner.rs`.  Enumerating a
range and fetching each device's reading are external `asic_rs` calls, so
a range's outcome is an input: either an error message or the list of
discovered readings, each already shaped into a `MinerInfo` and paired
with its wall-clock discovery timestamp.  `parseHr` models
`str::parse::<f64>` applied to the first whitespace-separated token of the
display hashrate string when recording coarse history. -/

abbrev RangeOutcome := Except (List Char) (List (Rat × MinerInfo))

abbrev PassState :=
  List (List Char × MinerInfo) × ScanProgress × List (List Char × List HashratePoint)

/-- Coarse-history side of one discovery: parse the display hashrate and,
on success, push a point onto that device's buffer (created on demand). -/
def recordHistory (parseHr : List Char → Option Rat)
    (hist : List (List Char × List HashratePoint)) (ts : Rat) (m : MinerInfo) :
    List (List Char × List HashratePoint) :=
  match parseHr m.hashrate with
  | some h => updateEntry hist m.ip [] (fun l => pushCoarse l ⟨ts, h⟩)
  | none => hist

/-- One discovered device inside a range: progress update, coarse history
append, staging into the pass-local map, found-count refresh. -/
def scanStep (parseHr : List Char → Option Rat) (st : PassState)
    (ev : Rat × MinerInfo) : PassState :=
  let pr1 := { st.2.1 with current_ip := ev.2.ip, scanned_ips := st.2.1.scanned_ips + 1 }
  let hist1 := recordHistory parseHr st.2.2 ev.1 ev.2
  let nm1 := insertKV st.1 ev.2.ip ev.2
  (nm1, { pr1 with found_miners := nm1.length }, hist1)

/-- One range of the pass: process its discoveries on success, log and
continue on an enumeration error. -/
def scanRangeStep (parseHr : List Char → Option Rat) (st : PassState)
    (r : RangeOutcome) : PassState :=
  match r with
  | Except.ok ms => ms.foldl (scanStep parseHr) st
  | Except.error _ => st

/-- The whole pass: fold the ranges over an empty pass-local map, then
replace the registry with the staged values, clear `scanning` and
`current_ip`.  Returns (new registry, final progress, final history). -/
def scan_ranges (parseHr : List Char → Option Rat) (pr0 : ScanProgress)
    (hist0 : List (List Char × List HashratePoint)) (ranges : List RangeOutcome) :
    List MinerInfo × ScanProgress × List (List Char × List HashratePoint) :=
  let fin := ranges.foldl (scanRangeStep parseHr) ([], pr0, hist0)
  (fin.1.map Prod.snd,
   { fin.2.1 with scanning := false, current_ip := [] },
   fin.2.2)

/-- The flat sequence of readings a list of range outcomes discovers, in
discovery order. -/
def discoveries : List RangeOutcome → List MinerInfo
  | [] => []
  | Except.ok ms :: rs => ms.map Prod.snd ++ discoveries rs
  | Except.error _ :: rs => discoveries rs

/-- The reading of the last discovery of address `a`, if any. -/
def lastDiscovery (a : List Char) (ds : List MinerInfo) : Option MinerInfo :=
  ds.reverse.find? (fun m => decide (m.ip = a))

/-- Registry lookup by address. -/
def regFind (a : List Char) (l : List MinerInfo) : Option MinerInfo :=
  l.find? (fun m => decide (m.ip = a))

/-! Association-map lemmas. -/

lemma findV_cons {α : Type} (q : List Char × α) (m : List (List Char × α)) (k : List Char) :
    findV k (q :: m) = if q.1 = k then some q.2 else findV k m := by
  by_cases h : q.1 = k
  · rw [findV, List.find?_cons_of_pos _ (by simpa using h)]
    simp [h]
  · rw [findV, List.find?_cons_of_neg _ (by simpa using h)]
    simp [h, findV]

lemma findV_insertKV {α : Type} (m : List (List Char × α)) (k k' : List Char) (v : α) :
    findV k' (insertKV m k v) = if k = k' then some v else findV k' m := by
  induction m with
  | nil =>
    by_cases h : k = k' <;> simp [insertKV, findV_cons, h, findV]
  | cons p ps ih =>
    by_cases hp : p.1 = k
    · rw [insertKV, if_pos hp, findV_cons]
      by_cases h : k = k'
      · rw [if_pos h, if_pos h]
      · rw [if_neg h, if_neg h, findV_cons, if_neg (fun hc => h (hp.symm.trans hc))]
    · rw [insertKV, if_neg hp]
      by_cases h : k = k'
      · rw [findV_cons, if_neg (fun hc => hp (hc.trans h.symm)), ih, if_pos h, if_pos h]
      · rw [findV_cons, ih, if_neg h, findV_cons, if_neg h]

lemma keys_insertKV {α : Type} (m : List (List Char × α)) (k : List Char) (v : α) :
    (insertKV m k v).map Prod.fst =
      if k ∈ m.map Prod.fst then m.map Prod.fst else m.map Prod.fst ++ [k] := by
  induction m with
  | nil => simp [insertKV]
  | cons p ps ih =>
    by_cases h : p.1 = k
    · rw [insertKV, if_pos h, List.map_cons, List.map_cons, h,
        if_pos (List.mem_cons_self _ _)]
    · rw [insertKV, if_neg h, List.map_cons, List.map_cons, ih]
      have hne : ¬k = p.1 := fun hc => h hc.symm
      by_cases hk : k ∈ ps.map Prod.fst
      · rw [if_pos hk, if_pos (List.mem_cons_of_mem _ hk)]
      · have hnotin : k ∉ p.1 :: ps.map Prod.fst := by
          intro hc
          rcases List.mem_cons.mp hc with hc | hc
          · exact hne hc
          · exact hk hc
        rw [if_neg hk, if_neg hnotin, List.cons_append]

lemma nodup_keys_insertKV {α : Type} {m : List (List Char × α)}
    (h : (m.map Prod.fst).Nodup) (k : List Char) (v : α) :
    ((insertKV m k v).map Prod.fst).Nodup := by
  rw [keys_insertKV]
  split
  · exact h
  · next hk =>
    refine List.Nodup.append h (List.nodup_singleton k) ?_
    intro x hx hx2
    simp only [List.mem_singleton] at hx2
    exact hk (hx2 ▸ hx)

lemma mem_insertKV {α : Type} (P : List Char × α → Prop) {m : List (List Char × α)}
    (hm : ∀ p ∈ m, P p) {k : List Char} {v : α} (hv : P (k, v)) :
    ∀ p ∈ insertKV m k v, P p := by
  induction m with
  | nil => simpa [insertKV] using hv
  | cons q qs ih =>
    by_cases h : q.1 = k
    · rw [insertKV, if_pos h]
      intro p hp
      rcases List.mem_cons.mp hp with hp | hp
      · exact hp ▸ hv
      · exact hm p (List.mem_cons_of_mem _ hp)
    · rw [insertKV, if_neg h]
      intro p hp
      rcases List.mem_cons.mp hp with hp | hp
      · exact hp ▸ hm q (List.mem_cons_self _ _)
      · exact ih (fun x hx => hm x (List.mem_cons_of_mem _ hx)) p hp

lemma find?_append_or {α : Type} (p : α → Bool) (l1 l2 : List α) :
    (l1 ++ l2).find? p = match l1.find? p with
      | some x => some x
      | none => l2.find? p := by
  induction l1 with
  | nil => simp
  | cons a l ih =>
    cases h : p a
    · rw [List.cons_append, List.find?_cons_of_neg _ (by simp [h]),
        List.find?_cons_of_neg _ (by simp [h]), ih]
    · rw [List.cons_append, List.find?_cons_of_pos _ h, List.find?_cons_of_pos _ h]

/-! Stage-map lemmas: the pass-local map is the left fold of `insertKV`
over the discovery sequence. -/

def stageIns (m : List (List Char × MinerInfo)) (d : MinerInfo) :
    List (List Char × MinerInfo) := insertKV m d.ip d

lemma lastDiscovery_cons (a : List Char) (d : MinerInfo) (ds : List MinerInfo) :
    lastDiscovery a (d :: ds) = match lastDiscovery a ds with
      | some x => some x
      | none => if d.ip = a then some d else none := by
  unfold lastDiscovery
  rw [List.reverse_cons, find?_append_or]
  cases ds.reverse.find? (fun m => decide (m.ip = a))
  · by_cases h : d.ip = a
    · rw [List.find?_cons_of_pos _ (by simpa using h)]
      simp [h]
    · rw [List.find?_cons_of_neg _ (by simpa using h)]
      simp [h]
  · rfl

lemma stage_findV (a : List Char) (ds : List MinerInfo) :
    ∀ m0, findV a (ds.foldl stageIns m0) = match lastDiscovery a ds with
      | some d => some d
      | none => findV a m0 := by
  induction ds with
  | nil => intro m0; simp [lastDiscovery]
  | cons d ds ih =>
    intro m0
    rw [List.foldl_cons, ih, lastDiscovery_cons]
    cases hl : lastDiscovery a ds
    · simp only [stageIns, findV_insertKV]
      by_cases h : d.ip = a <;> simp [h]
    · simp

lemma stage_nodup (ds : List MinerInfo) :
    ∀ m0 : List (List Char × MinerInfo), (m0.map Prod.fst).Nodup →
      ((ds.foldl stageIns m0).map Prod.fst).Nodup := by
  induction ds with
  | nil => intro m0 h; exact h
  | cons d ds ih =>
    intro m0 h
    exact ih _ (nodup_keys_insertKV h _ _)

lemma stage_inv (ds : List MinerInfo) :
    ∀ m0 : List (List Char × MinerInfo), (∀ p ∈ m0, p.2.ip = p.1) →
      ∀ p ∈ ds.foldl stageIns m0, p.2.ip = p.1 := by
  induction ds with
  | nil => intro m0 h; exact h
  | cons d ds ih =>
    intro m0 h
    exact ih _ (mem_insertKV (fun p : List Char × MinerInfo => p.2.ip = p.1) h rfl)

lemma foldl_scanStep_fst (parseHr : List Char → Option Rat) (ms : List (Rat × MinerInfo)) :
    ∀ st : PassState,
      (ms.foldl (scanStep parseHr) st).1 = (ms.map Prod.snd).foldl stageIns st.1 := by
  induction ms with
  | nil => intro st; rfl
  | cons ev ms ih =>
    intro st
    rw [List.foldl_cons, ih, List.map_cons, List.foldl_cons]
    rfl

lemma foldl_rangeStep_fst (parseHr : List Char → Option Rat) (ranges : List RangeOutcome) :
    ∀ st : PassState,
      (ranges.foldl (scanRangeStep parseHr) st).1 = (discoveries ranges).foldl stageIns st.1 := by
  induction ranges with
  | nil => intro st; rfl
  | cons r rs ih =>
    intro st
    cases r with
    | ok ms =>
      rw [List.foldl_cons, ih]
      show (discoveries rs).foldl stageIns (ms.foldl (scanStep parseHr) st).1 = _
      rw [foldl_scanStep_fst, discoveries, List.foldl_append]
    | error e =>
      rw [List.foldl_cons, ih]
      rfl

lemma regFind_map_snd (a : List Char) :
    ∀ m : List (List Char × MinerInfo), (∀ p ∈ m, p.2.ip = p.1) →
      regFind a (m.map Prod.snd) = findV a m := by
  intro m
  induction m with
  | nil => intro _; rfl
  | cons p ps ih =>
    intro hinv
    have hip : p.2.ip = p.1 := hinv p (List.mem_cons_self _ _)
    rw [List.map_cons]
    by_cases h : p.1 = a
    · rw [regFind, List.find?_cons_of_pos _ (by simp [hip, h]), findV_cons, if_pos h]
    · rw [regFind, List.find?_cons_of_neg _ (by simp [hip, h]), findV_cons, if_neg h]
      exact ih fun x hx => hinv x (List.mem_cons_of_mem _ hx)

lemma scan_ranges_regFind (parseHr : List Char → Option Rat) (pr0 : ScanProgress)
    (hist0 : List (List Char × List HashratePoint)) (ranges : List RangeOutcome)
    (a : List Char) :
    regFind a (scan_ranges parseHr pr0 hist0 ranges).1
      = lastDiscovery a (discoveries ranges) := by
  have hfst := foldl_rangeStep_fst parseHr ranges ([], pr0, hist0)
  have hinv : ∀ p ∈ (ranges.foldl (scanRangeStep parseHr) ([], pr0, hist0)).1,
      p.2.ip = p.1 := by
    rw [hfst]
    exact stage_inv _ _ (by simp)
  show regFind a ((ranges.foldl (scanRangeStep parseHr) ([], pr0, hist0)).1.map Prod.snd)
      = _
  rw [regFind_map_snd a _ hinv, hfst, stage_findV]
  cases lastDiscovery a (discoveries ranges) <;> simp [findV]

lemma scan_ranges_ips_nodup (parseHr : List Char → Option Rat) (pr0 : ScanProgress)
    (hist0 : List (List Char × List HashratePoint)) (ranges : List RangeOutcome) :
    ((scan_ranges parseHr pr0 hist0 ranges).1.map (fun m => m.ip)).Nodup := by
  have hfst := foldl_rangeStep_fst parseHr ranges ([], pr0, hist0)
  have hinv : ∀ p ∈ (ranges.foldl (scanRangeStep parseHr) ([], pr0, hist0)).1,
      p.2.ip = p.1 := by
    rw [hfst]
    exact stage_inv _ _ (by simp)
  show (((ranges.foldl (scanRangeStep parseHr) ([], pr0, hist0)).1.map Prod.snd).map
      (fun m => m.ip)).Nodup
  rw [List.map_map]
  have hcongr : (ranges.foldl (scanRangeStep parseHr) ([], pr0, hist0)).1.map
      ((fun m => m.ip) ∘ Prod.snd)
      = (ranges.foldl (scanRangeStep parseHr) ([], pr0, hist0)).1.map Prod.fst := by
    refine List.map_congr_left ?_
    intro p hp
    exact hinv p hp
  rw [hcongr, hfst]
  exact stage_nodup _ _ (by simp)

/-- C2: a scan pass stages discoveries into the pass-local address-keyed
map with last-writer-within-pass overwrite, and the registry installed at
pass end holds exactly one entry per discovered address, carrying the
reading of the later discovery. -/
theorem scan_registry_dedup (parseHr : List Char → Option Rat) (pr0 : ScanProgress)
    (hist0 : List (List Char × List HashratePoint)) (ranges : List RangeOutcome) :
    ((scan_ranges parseHr pr0 hist0 ranges).1.map (fun m => m.ip)).Nodup ∧
    ∀ a : List Char,
      regFind a (scan_ranges parseHr pr0 hist0 ranges).1
        = lastDiscovery a (discoveries ranges) :=
  ⟨scan_ranges_ips_nodup parseHr pr0 hist0 ranges,
   fun a => scan_ranges_regFind parseHr pr0 hist0 ranges a⟩

/-- C6: a failing range inside a multi-range pass is skipped without
affecting the rest of the pass: the result is the same as if the failing
range were absent, devices of the other ranges are registered, and the
pass still completes with `scanning` cleared and `current_ip` emptied. -/
theorem scan_error_skip (parseHr : List Char → Option Rat) (pr0 : ScanProgress)
    (hist0 : List (List Char × List HashratePoint)) (xs ys : List RangeOutcome)
    (e : List Char) :
    scan_ranges parseHr pr0 hist0 (xs ++ Except.error e :: ys)
      = scan_ranges parseHr pr0 hist0 (xs ++ ys) ∧
    (∀ a : List Char,
      regFind a (scan_ranges parseHr pr0 hist0 (xs ++ Except.error e :: ys)).1
        = lastDiscovery a (discoveries (xs ++ ys))) ∧
    (scan_ranges parseHr pr0 hist0 (xs ++ Except.error e :: ys)).2.1.scanning = false ∧
    (scan_ranges parseHr pr0 hist0 (xs ++ Except.error e :: ys)).2.1.current_ip = [] := by
  have hfold : (xs ++ Except.error e :: ys).foldl (scanRangeStep parseHr) ([], pr0, hist0)
      = (xs ++ ys).foldl (scanRangeStep parseHr) ([], pr0, hist0) := by
    rw [List.foldl_append, List.foldl_cons, List.foldl_append]
    rfl
  have heq : scan_ranges parseHr pr0 hist0 (xs ++ Except.error e :: ys)
      = scan_ranges parseHr pr0 hist0 (xs ++ ys) := by
    unfold scan_ranges
    rw [hfold]
  refine ⟨heq, fun a => ?_, rfl, rfl⟩
  rw [heq]
  exact scan_ranges_regFind parseHr pr0 hist0 (xs ++ ys) a

/-! FIFO characterization of the history buffers. -/

lemma foldl_pushCoarse (ps : List HashratePoint) :
    List.foldl pushCoarse [] ps = ps.drop (ps.length - MAX_HISTORY_POINTS) := by
  induction ps using List.reverseRecOn with
  | nil => rfl
  | append_singleton ps p ih =>
    rw [List.foldl_append, List.foldl_cons, List.foldl_nil, ih]
    unfold pushCoarse
    simp only [List.length_append, List.length_drop, List.length_singleton]
    by_cases h : MAX_HISTORY_POINTS < ps.length - (ps.length - MAX_HISTORY_POINTS) + 1
    · rw [if_pos h]
      have hge : MAX_HISTORY_POINTS ≤ ps.length := by
        unfold MAX_HISTORY_POINTS at h ⊢
        omega
      have harith : ps.length - (ps.length - MAX_HISTORY_POINTS) + 1 - MAX_HISTORY_POINTS
          = 1 := by
        unfold MAX_HISTORY_POINTS at hge ⊢
        omega
      rw [harith,
        List.drop_append_of_le_length (by
          rw [List.length_drop]
          unfold MAX_HISTORY_POINTS at hge ⊢
          omega),
        List.drop_append_of_le_length (by
          unfold MAX_HISTORY_POINTS at hge ⊢
          omega),
        List.drop_drop]
      have harith2 : ps.length - MAX_HISTORY_POINTS + 1 = ps.length + 1 - MAX_HISTORY_POINTS := by
        unfold MAX_HISTORY_POINTS at hge ⊢
        omega
      rw [harith2]
    · rw [if_neg h]
      have hlt : ps.length < MAX_HISTORY_POINTS := by
        unfold MAX_HISTORY_POINTS at h ⊢
        omega
      have h1 : ps.length - MAX_HISTORY_POINTS = 0 := by omega
      have h2 : ps.length + 1 - MAX_HISTORY_POINTS = 0 := by omega
      rw [h1, h2, List.drop_zero, List.drop_zero]

lemma foldl_pushFine (qs : List MetricsPoint) :
    List.foldl pushFine [] qs = qs.drop (qs.length - 9000) := by
  induction qs using List.reverseRecOn with
  | nil => rfl
  | append_singleton qs p ih =>
    rw [List.foldl_append, List.foldl_cons, List.foldl_nil, ih]
    unfold pushFine
    simp only [List.length_append, List.length_drop, List.length_singleton]
    by_cases h : 9000 < qs.length - (qs.length - 9000) + 1
    · rw [if_pos h]
      have hge : 9000 ≤ qs.length := by omega
      rw [List.drop_append_of_le_length (by rw [List.length_drop]; omega),
        List.drop_append_of_le_length (by omega),
        List.drop_drop]
      have harith2 : qs.length - 9000 + 1 = qs.length + 1 - 9000 := by omega
      rw [harith2]
    · rw [if_neg h]
      have hlt : qs.length < 9000 := by omega
      have h1 : qs.length - 9000 = 0 := by omega
      have h2 : qs.length + 1 - 9000 = 0 := by omega
      rw [h1, h2, List.drop_zero, List.drop_zero]

/-- C5: both per-device history buffers are capacity-bounded FIFOs
(coarse capacity `MAX_HISTORY_POINTS = 288`, fine capacity 9000): after
appending a whole sequence of points into an empty buffer the buffer
holds exactly the last `C` points in insertion order, its size is
`min N C`, and its oldest retained point is the `(N - C + 1)`-th inserted
point (the first point while `N` is at most `C`). -/
theorem history_buffers_fifo (ps : List HashratePoint) (qs : List MetricsPoint) :
    MAX_HISTORY_POINTS = 288 ∧
    List.foldl pushCoarse [] ps = ps.drop (ps.length - MAX_HISTORY_POINTS) ∧
    (List.foldl pushCoarse [] ps).length = min ps.length MAX_HISTORY_POINTS ∧
    (List.foldl pushCoarse [] ps).head? = ps[ps.length - MAX_HISTORY_POINTS]? ∧
    List.foldl pushFine [] qs = qs.drop (qs.length - 9000) ∧
    (List.foldl pushFine [] qs).length = min qs.length 9000 ∧
    (List.foldl pushFine [] qs).head? = qs[qs.length - 9000]? := by
  refine ⟨rfl, foldl_pushCoarse ps, ?_, ?_, foldl_pushFine qs, ?_, ?_⟩
  · rw [foldl_pushCoarse, List.length_drop]
    omega
  · rw [foldl_pushCoarse, List.head?_drop]
  · rw [foldl_pushFine, List.length_drop]
    omega
  · rw [foldl_pushFine, List.head?_drop]

/-! Targeted per-device refresh.  From `src/ui/detail.rs`: the refresh
task updates the registry with
`if let Some(existing) = miners_list.iter_mut().find(|m| m.ip == ip)
\x7b existing.full_data = Some(data); \x7d` — only an already-present entry is
modified, nothing is inserted. -/

def updateOne : List MinerInfo → List Char → MinerData → List MinerInfo
  | [], _, _ => []
  | m :: ms, ip, d =>
    if m.ip = ip then { m with full_data := some d } :: ms
    else m :: updateOne ms ip d

lemma updateOne_length (ms : List MinerInfo) (ip : List Char) (d : MinerData) :
    (updateOne ms ip d).length = ms.length := by
  induction ms with
  | nil => rfl
  | cons m tl ih =>
    by_cases h : m.ip = ip
    · rw [updateOne, if_pos h, List.length_cons, List.length_cons]
    · rw [updateOne, if_neg h, List.length_cons, List.length_cons, ih]

lemma updateOne_absent (ms : List MinerInfo) (ip : List Char) (d : MinerData)
    (h : ∀ m ∈ ms, m.ip ≠ ip) : updateOne ms ip d = ms := by
  induction ms with
  | nil => rfl
  | cons m tl ih =>
    rw [updateOne, if_neg (h m (List.mem_cons_self _ _)),
      ih fun x hx => h x (List.mem_cons_of_mem _ hx)]

lemma updateOne_get (ms : List MinerInfo) (ip : List Char) (d : MinerData) :
    ∀ i : Nat, ∀ m : MinerInfo, ms[i]? = some m →
      (updateOne ms ip d)[i]? = some m ∨
      ((updateOne ms ip d)[i]? = some { m with full_data := some d } ∧ m.ip = ip) := by
  induction ms with
  | nil => intro i m h; simp at h
  | cons m0 tl ih =>
    intro i m h
    by_cases hip : m0.ip = ip
    · rw [updateOne, if_pos hip]
      cases i with
      | zero =>
        simp only [List.getElem?_cons_zero, Option.some_inj] at h
        subst h
        exact Or.inr ⟨by simp, hip⟩
      | succ j =>
        simp only [List.getElem?_cons_succ] at h ⊢
        exact Or.inl h
    · rw [updateOne, if_neg hip]
      cases i with
      | zero =>
        simp only [List.getElem?_cons_zero, Option.some_inj] at h
        subst h
        exact Or.inl (by simp)
      | succ j =>
        simp only [List.getElem?_cons_succ] at h ⊢
        exact ih j m h

/-- C8: a targeted refresh of an address absent from the registry is a
no-op (it never inserts), the registry length is always preserved, and
when the address is present only that entry changes, and only in its
`full_data` field. -/
theorem update_refresh_frame (ms : List MinerInfo) (ip : List Char) (d : MinerData) :
    (updateOne ms ip d).length = ms.length ∧
    ((∀ m ∈ ms, m.ip ≠ ip) → updateOne ms ip d = ms) ∧
    (∀ i : Nat, ∀ m : MinerInfo, ms[i]? = some m →
      (updateOne ms ip d)[i]? = some m ∨
      ((updateOne ms ip d)[i]? = some { m with full_data := some d } ∧ m.ip = ip)) :=
  ⟨updateOne_length ms ip d, updateOne_absent ms ip d, updateOne_get ms ip d⟩

/-! Concrete fixtures. -/

def hbEx : Hashboard := { hashrate := some 5, board_temperature := some 60 }

def fanEx : FanInfo := { rpm := some 3000 }

def dEx3 : MinerData :=
  { mac := some "AA:BB".toList, hostname := none, firmware_version := none,
    hashrate := some 15, wattage := some 3000, efficiency := some 20,
    average_temperature := some 60, hashboards := [hbEx, hbEx, hbEx],
    fans := [fanEx, fanEx], light_flashing := none, is_mining := true }

def dEx3b : MinerData := { dEx3 with hashboards := [hbEx, hbEx], fans := [fanEx] }

def mEx3 : MinerInfo :=
  { ip := "10.0.81.7".toList, hostname := "h".toList, model := "S19 Pro".toList,
    firmware_version := "fw1".toList, control_board := "cb".toList,
    hashrate := "15.00".toList, wattage := "3000 W".toList, efficiency := "20.0".toList,
    temperature := "60.0".toList, fan_speed := "3000 RPM".toList, pool := "p".toList,
    worker := "w".toList, light_flashing := false, full_data := some dEx3 }

def mEx3b : MinerInfo := { mEx3 with full_data := some dEx3b }

def mExB : MinerInfo := { mEx3 with ip := "10.0.81.8".toList, full_data := none }

def dExU : MinerData := { dEx3 with hashrate := some 16 }

/-- Witness for C8: refreshing an absent address leaves the registry
unchanged; for a present address the length is preserved and exactly the
matching entry gets the new reading. -/
theorem update_refresh_frame_witness :
    updateOne [mEx3, mExB] "10.0.81.99".toList dExU = [mEx3, mExB] ∧
    (updateOne [mEx3, mExB] "10.0.81.7".toList dExU).length = 2 ∧
    ((updateOne [mEx3, mExB] "10.0.81.7".toList dExU)[0]? = some mEx3 ∨
      ((updateOne [mEx3, mExB] "10.0.81.7".toList dExU)[0]?
          = some { mEx3 with full_data := some dExU } ∧ mEx3.ip = "10.0.81.7".toList)) :=
  ⟨(update_refresh_frame [mEx3, mExB] "10.0.81.99".toList dExU).2.1 (by decide),
   ((update_refresh_frame [mEx3, mExB] "10.0.81.7".toList dExU).1).trans (by decide),
   (update_refresh_frame [mEx3, mExB] "10.0.81.7".toList dExU).2.2 0 mEx3 (by decide)⟩

/-! Closing a detail view.  From `src/ui/detail.rs` (the close branch of
`draw_miner_detail_modal`): the closed miner is removed from the open
list, its fine metrics history and both refresh timers are dropped, and
if a `RecordingState` exists for its address it is removed and its file
is deleted from disk — with no check of `is_recording` or of whether the
recording was ever exported.  The file system is modelled as the list of
existing file paths; a failed `remove_file` is logged and ignored. -/

structure DetailState where
  detail_view_miners : List MinerInfo
  detail_metrics_history : List (List Char × List MetricsPoint)
  detail_refresh_times : List (List Char × Rat)
  detail_graph_update_times : List (List Char × Rat)
  recording_states : List (List Char × RecordingState)
  files : List (List Char)

/-- `delete_recording` from `src/recording.rs`: remove the recording's
file from disk. -/
def delete_recording (files : List (List Char)) (rec : RecordingState) : List (List Char) :=
  files.filter (fun q => !decide (q = rec.file_path))

def closeDetailMiner (st : DetailState) (m : MinerInfo) : DetailState :=
  { detail_view_miners := st.detail_view_miners.erase m,
    detail_metrics_history := eraseKey st.detail_metrics_history m.ip,
    detail_refresh_times := eraseKey st.detail_refresh_times m.ip,
    detail_graph_update_times := eraseKey st.detail_graph_update_times m.ip,
    recording_states :=
      match findV m.ip st.recording_states with
      | some _ => eraseKey st.recording_states m.ip
      | none => st.recording_states,
    files :=
      match findV m.ip st.recording_states with
      | some rec => delete_recording st.files rec
      | none => st.files }

lemma findV_eraseKey {α : Type} (m : List (List Char × α)) (k : List Char) :
    findV k (eraseKey m k) = none := by
  induction m with
  | nil => rfl
  | cons p ps ih =>
    rw [eraseKey, List.filter_cons]
    by_cases h : p.1 = k
    · rw [if_neg (by simp [h])]
      exact ih
    · rw [if_pos (by simp [h]), findV_cons, if_neg h]
      exact ih

lemma not_mem_delete_recording (files : List (List Char)) (rec : RecordingState) :
    rec.file_path ∉ delete_recording files rec := by
  intro hmem
  rcases (List.mem_filter.mp hmem) with ⟨_, hq⟩
  simp at hq

/-- C10: closing the detail view of a device with a `RecordingState` —
whatever that state's flags, in particular even when the recording was
already stopped — deletes the recording's file, discards the
`RecordingState`, and discards the device's fine metrics history and both
refresh timers. -/
theorem close_detail_cleanup (st : DetailState) (m : MinerInfo) (rec : RecordingState)
    (hrec : findV m.ip st.recording_states = some rec) :
    findV m.ip (closeDetailMiner st m).recording_states = none ∧
    rec.file_path ∉ (closeDetailMiner st m).files ∧
    findV m.ip (closeDetailMiner st m).detail_metrics_history = none ∧
    findV m.ip (closeDetailMiner st m).detail_refresh_times = none ∧
    findV m.ip (closeDetailMiner st m).detail_graph_update_times = none := by
  refine ⟨?_, ?_, findV_eraseKey _ _, findV_eraseKey _ _, findV_eraseKey _ _⟩
  · show findV m.ip (match findV m.ip st.recording_states with
      | some _ => eraseKey st.recording_states m.ip
      | none => st.recording_states) = none
    rw [hrec]
    exact findV_eraseKey _ _
  · show rec.file_path ∉ (match findV m.ip st.recording_states with
      | some r => delete_recording st.files r
      | none => st.files)
    rw [hrec]
    exact not_mem_delete_recording _ _

/-- A stopped, never-exported recording state for the close-view witness. -/
def recStopped : RecordingState :=
  { file_path := "recording_10.0.81.7_S19Pro_AA:BB_t0.csv".toList,
    row_count := 4, is_recording := false }

def stEx : DetailState :=
  { detail_view_miners := [mEx3],
    detail_metrics_history := [("10.0.81.7".toList, [])],
    detail_refresh_times := [("10.0.81.7".toList, 1)],
    detail_graph_update_times := [("10.0.81.7".toList, 1)],
    recording_states := [("10.0.81.7".toList, recStopped)],
    files := [recStopped.file_path] }

/-- Witness for C10 at a state whose recording is already stopped. -/
theorem close_detail_cleanup_witness :
    findV mEx3.ip (closeDetailMiner stEx mEx3).recording_states = none ∧
    recStopped.file_path ∉ (closeDetailMiner stEx mEx3).files ∧
    findV mEx3.ip (closeDetailMiner stEx mEx3).detail_metrics_history = none ∧
    findV mEx3.ip (closeDetailMiner stEx mEx3).detail_refresh_times = none ∧
    findV mEx3.ip (closeDetailMiner stEx mEx3).detail_graph_update_times = none :=
  close_detail_cleanup stEx mEx3 recStopped (by rfl)

/-! The CSV recorder, `src/recording.rs`.  Numeric cells are produced by
Rust's fixed-precision float formatting `\x7b:.p\x7d`: scale by `10^p`, round
to the nearest integer (claim-relevant evaluations use values exactly
representable at the target precision, where every tie-breaking
convention agrees), then print the whole part and exactly `p` fractional
digits. -/

/-- Unbounded decimal rendering, fuel equal to the value (enough since the
value shrinks by a factor of ten per digit). -/
def natToDigitsAux : Nat → Nat → List Char → List Char
  | 0, _, acc => acc
  | fuel + 1, n, acc =>
    if n = 0 then acc else natToDigitsAux fuel (n / 10) (digitChar (n % 10) :: acc)

def natToDigits (n : Nat) : List Char :=
  if n = 0 then ['0'] else natToDigitsAux n n []

/-- Exactly `p` fractional digits of `n`, least significant last,
left-padded with zeros. -/
def fracDigitsOf : Nat → Nat → List Char
  | 0, _ => []
  | p + 1, n => fracDigitsOf p (n / 10) ++ [digitChar (n % 10)]

/-- Rust `format!("\x7b:.p\x7d", x)` on a finite `f64`, over exact rationals. -/
def fmtFixed (p : Nat) (x : Rat) : List Char :=
  (if x < 0 then ['-'] else []) ++
    natToDigits ((⌊|x| * (10 : Rat) ^ p + 1 / 2⌋).toNat / 10 ^ p) ++
    (if p = 0 then [] else '.' :: fracDigitsOf p (⌊|x| * (10 : Rat) ^ p + 1 / 2⌋).toNat)

/-- Number of digits printed after the (last) decimal point of a cell. -/
def fracDigitCount (cell : List Char) : Nat :=
  match rsplitOnce '.' cell with
  | some (_, frac) => frac.length
  | none => 0

lemma natToDigitsAux_digits :
    ∀ fuel n acc, (∀ c ∈ acc, c.isDigit = true) →
      ∀ c ∈ natToDigitsAux fuel n acc, c.isDigit = true := by
  intro fuel
  induction fuel with
  | zero => intro n acc h; exact h
  | succ f ih =>
    intro n acc h c hc
    rw [natToDigitsAux] at hc
    split at hc
    · exact h c hc
    · refine ih (n / 10) _ ?_ c hc
      intro x hx
      rcases List.mem_cons.mp hx with hx | hx
      · exact hx ▸ digitChar_isDigit (Nat.mod_lt _ (by omega))
      · exact h x hx

lemma natToDigits_digits (n : Nat) : ∀ c ∈ natToDigits n, c.isDigit = true := by
  unfold natToDigits
  split
  · intro c hc
    simp only [List.mem_singleton] at hc
    subst hc
    decide
  · exact natToDigitsAux_digits n n [] (by simp)

lemma fracDigitsOf_length (p : Nat) : ∀ n, (fracDigitsOf p n).length = p := by
  induction p with
  | zero => intro n; rfl
  | succ q ih =>
    intro n
    rw [fracDigitsOf, List.length_append, ih, List.length_singleton]

lemma fracDigitsOf_digits (p : Nat) :
    ∀ n, ∀ c ∈ fracDigitsOf p n, c.isDigit = true := by
  induction p with
  | zero => intro n c hc; simp [fracDigitsOf] at hc
  | succ q ih =>
    intro n c hc
    rw [fracDigitsOf] at hc
    rcases List.mem_append.mp hc with hc | hc
    · exact ih (n / 10) c hc
    · simp only [List.mem_singleton] at hc
      exact hc ▸ digitChar_isDigit (Nat.mod_lt _ (by omega))

lemma fracDigitCount_fmtFixed_pos (p : Nat) (x : Rat) (hp : p ≠ 0) :
    fracDigitCount (fmtFixed p x) = p := by
  unfold fmtFixed
  rw [if_neg hp]
  have hshape : (if x < 0 then ['-'] else []) ++
      natToDigits ((⌊|x| * (10 : Rat) ^ p + 1 / 2⌋).toNat / 10 ^ p) ++
      '.' :: fracDigitsOf p (⌊|x| * (10 : Rat) ^ p + 1 / 2⌋).toNat
      = ((if x < 0 then ['-'] else []) ++
        natToDigits ((⌊|x| * (10 : Rat) ^ p + 1 / 2⌋).toNat / 10 ^ p)) ++
        '.' :: fracDigitsOf p (⌊|x| * (10 : Rat) ^ p + 1 / 2⌋).toNat := by
    rw [List.append_assoc]
  rw [hshape, fracDigitCount,
    rsplitOnce_append '.' _ (fun hm => absurd (fracDigitsOf_digits p _ _ hm) (by decide)) _]
  exact fracDigitsOf_length p _

lemma fracDigitCount_fmtFixed_zero (x : Rat) : fracDigitCount (fmtFixed 0 x) = 0 := by
  unfold fmtFixed
  rw [if_pos rfl, List.append_nil, fracDigitCount,
    rsplitOnce_of_not_mem _ _ ?notmem]
  case notmem =>
    intro hm
    rcases List.mem_append.mp hm with hm | hm
    · split at hm
      · simp only [List.mem_singleton] at hm
        exact absurd hm (by decide)
      · simp at hm
    · exact absurd (natToDigits_digits _ _ hm) (by decide)

/-- The nine fixed header columns of a recording file, including the
mojibake degree sign exactly as the source writes it. -/
def headerBase : List (List Char) :=
  ["Miner IP".toList, "MAC Address".toList, "Model".toList, "Firmware".toList,
   "Timestamp".toList, "Total Hashrate (TH/s)".toList, "Power (W)".toList,
   "Efficiency (W/TH)".toList, "Avg Temperature (Â°C)".toList]

/-- The header row for `nb` hashboards and `nf` fans: board hashrate
columns (0-based), board temperature columns (0-based), fan RPM columns
(1-based), as `start_recording` writes them. -/
def headerCells (nb nf : Nat) : List (List Char) :=
  headerBase
    ++ (List.range nb).map (fun i => "Board ".toList ++ natToDigits i ++ " Hashrate".toList)
    ++ (List.range nb).map (fun i => "Board ".toList ++ natToDigits i ++ " Temp".toList)
    ++ (List.range' 1 nf).map (fun i => "Fan ".toList ++ natToDigits i ++ " RPM".toList)

/-- `MinerInfo::mac_address` from `src/recording.rs`. -/
def mac_address (m : MinerInfo) : Option (List Char) :=
  m.full_data.bind (fun d => d.mac)

/-- The recording filename `recording_{ip}_{model}_{mac}_{timestamp}.csv`
(spaces stripped from the model, `unknown` for a missing MAC); the
recordings directory prefix is environment state and is omitted. -/
def recordingFilePath (m : MinerInfo) (now : List Char) : List Char :=
  "recording_".toList ++ m.ip ++ "_".toList
    ++ m.model.filter (fun c => !decide (c = ' ')) ++ "_".toList
    ++ (mac_address m).getD "unknown".toList ++ "_".toList ++ now ++ ".csv".toList

/-- `start_recording` from `src/recording.rs`: size the header to the
device's board and fan counts at this moment (0 and 0 without a full
reading), create the file, and return a fresh active recording state.
Returns the state and the written header row. -/
def start_recording (m : MinerInfo) (now : List Char) :
    RecordingState × List (List Char) :=
  match m.full_data with
  | some d =>
    (⟨recordingFilePath m now, 0, true⟩, headerCells d.hashboards.length d.fans.length)
  | none => (⟨recordingFilePath m now, 0, true⟩, headerCells 0 0)

/-- One data row of `append_data_point`: the nine base cells, then the
per-board hashrates, per-board temperatures and fan RPMs of the reading
`d` supplied at append time, each formatted at the precision the source
uses (`\x7b:.2\x7d` except power and fan RPM at `\x7b:.0\x7d`). -/
def rowCells (m : MinerInfo) (d : MinerData) (ts : List Char) : List (List Char) :=
  [m.ip,
   d.mac.getD "N/A".toList,
   m.model,
   m.firmware_version,
   ts,
   fmtFixed 2 (d.hashrate.getD 0),
   fmtFixed 0 (d.wattage.getD 0),
   fmtFixed 2 (d.efficiency.getD 0),
   fmtFixed 2 (d.average_temperature.getD 0)]
    ++ d.hashboards.map (fun b => fmtFixed 2 (b.hashrate.getD 0))
    ++ d.hashboards.map (fun b => fmtFixed 2 (b.board_temperature.getD 0))
    ++ d.fans.map (fun f => fmtFixed 0 (f.rpm.getD 0))

/-- `append_data_point` from `src/recording.rs`: no row when the state is
not recording or the miner has no full reading; otherwise a row derived
from the append-time reading, and the row count increments.  Returns the
updated state and the written row, if any. -/
def append_data_point (rec : RecordingState) (m : MinerInfo) (ts : List Char) :
    RecordingState × Option (List (List Char)) :=
  if rec.is_recording = false then (rec, none)
  else
    match m.full_data with
    | none => (rec, none)
    | some d => ({ rec with row_count := rec.row_count + 1 }, some (rowCells m d ts))

/-- `stop_recording` from `src/recording.rs`: flip the flag only. -/
def stop_recording (rec : RecordingState) : RecordingState :=
  { rec with is_recording := false }

lemma headerCells_length (nb nf : Nat) :
    (headerCells nb nf).length = 9 + (nb + nb + nf) := by
  rw [headerCells, List.length_append, List.length_append, List.length_append,
    List.length_map, List.length_map, List.length_map, List.length_range,
    List.length_range']
  show headerBase.length + nb + nb + nf = 9 + (nb + nb + nf)
  rw [show headerBase.length = 9 from rfl]
  omega

lemma append_writes_row (rec : RecordingState) (m : MinerInfo) (d : MinerData)
    (ts : List Char) (hrec : rec.is_recording = true) (hd : m.full_data = some d) :
    (append_data_point rec m ts).2 = some (rowCells m d ts) := by
  rw [append_data_point, hrec, if_neg (by simp), hd]

lemma rowCells_length (m : MinerInfo) (d : MinerData) (ts : List Char) :
    (rowCells m d ts).length
      = 9 + (d.hashboards.length + d.hashboards.length + d.fans.length) := by
  rw [rowCells, List.length_append, List.length_append, List.length_append,
    List.length_map, List.length_map, List.length_map]
  simp only [List.length_cons, List.length_nil]
  omega

/-- Counterexample to C3 as stated: start fixes a 3-board / 2-fan schema
(8 dynamic header columns), but an append whose reading reports 2 boards
and 1 fan writes a row with 5 dynamic columns, not 8. -/
theorem recording_schema_cex :
    (start_recording mEx3 "t0".toList).2.length = 9 + (3 + 3 + 2) ∧
    ((append_data_point (start_recording mEx3 "t0".toList).1 mEx3b "t1".toList).2).map
        List.length = some (9 + (2 + 2 + 1)) ∧
    9 + (2 + 2 + 1) ≠ 9 + (3 + 3 + 2) :=
  ⟨by rfl, by rfl, by decide⟩

/-- C3 (amended): the recorder does not carry the start-time schema in
`RecordingState`; each append derives its column counts from the reading
at append time, so an accepted append writes a row of `9 + 2N' + M'`
cells where `N'` and `M'` are the append-time board and fan counts.  The
row shape matches the start-time header only when the topology is
unchanged. -/
theorem append_row_width (rec : RecordingState) (m : MinerInfo) (d : MinerData)
    (ts : List Char) (hrec : rec.is_recording = true) (hd : m.full_data = some d) :
    ((append_data_point rec m ts).2).map List.length
      = some (9 + (d.hashboards.length + d.hashboards.length + d.fans.length)) := by
  rw [append_writes_row rec m d ts hrec hd]
  show some (rowCells m d ts).length = _
  rw [rowCells_length]

/-- Witness for the amended C3. -/
theorem append_row_width_witness :
    ((append_data_point (start_recording mEx3 "t0".toList).1 mEx3b "t1".toList).2).map
        List.length
      = some (9 + (dEx3b.hashboards.length + dEx3b.hashboards.length
          + dEx3b.fans.length)) :=
  append_row_width (start_recording mEx3 "t0".toList).1 mEx3b dEx3b "t1".toList rfl rfl

def dEx7 : MinerData :=
  { dEx3 with efficiency := some (15 / 4), average_temperature := some (121 / 2) }

def mEx7 : MinerInfo := { mEx3 with full_data := some dEx7 }

def recW7 : RecordingState :=
  { file_path := "f.csv".toList, row_count := 0, is_recording := true }

lemma fmtFixed_eval_nonneg (p : Nat) (x : Rat) (n : Nat) (hx : 0 ≤ x)
    (hfl : ⌊x * (10 : Rat) ^ p + 1 / 2⌋ = (n : Int)) :
    fmtFixed p x = natToDigits (n / 10 ^ p)
      ++ (if p = 0 then [] else '.' :: fracDigitsOf p n) := by
  unfold fmtFixed
  rw [if_neg (not_lt.mpr hx), abs_of_nonneg hx, hfl, Int.toNat_natCast, List.nil_append]

lemma fmt_eff_eval : fmtFixed 2 ((15 : Rat) / 4) = "3.75".toList := by
  rw [fmtFixed_eval_nonneg 2 ((15 : Rat) / 4) 375 (by norm_num) ?hfl]
  case hfl =>
    have h : ((15 : Rat) / 4) * (10 : Rat) ^ 2 + 1 / 2 = 751 / 2 := by norm_num
    rw [h, Int.floor_eq_iff]
    constructor <;> norm_num
  rfl

lemma fmt_temp_eval : fmtFixed 2 ((121 : Rat) / 2) = "60.50".toList := by
  rw [fmtFixed_eval_nonneg 2 ((121 : Rat) / 2) 6050 (by norm_num) ?hfl]
  case hfl =>
    have h : ((121 : Rat) / 2) * (10 : Rat) ^ 2 + 1 / 2 = 12101 / 2 := by norm_num
    rw [h, Int.floor_eq_iff]
    constructor <;> norm_num
  rfl

/-- Counterexample to C7 as stated: with efficiency 3.75 W/TH and average
temperature 60.5 degrees, the appended row carries the cells `3.75` and
`60.50` — two fractional digits each, where the claim asserts one. -/
theorem recorder_precision_cex :
    (rowCells mEx7 dEx7 "t".toList)[7]? = some "3.75".toList ∧
    fracDigitCount "3.75".toList = 2 ∧
    (rowCells mEx7 dEx7 "t".toList)[8]? = some "60.50".toList ∧
    fracDigitCount "60.50".toList = 2 ∧
    (2 : Nat) ≠ 1 := by
  refine ⟨?_, by rfl, ?_, by rfl, by decide⟩
  · rw [show (rowCells mEx7 dEx7 "t".toList)[7]?
        = some (fmtFixed 2 ((15 : Rat) / 4)) from rfl, fmt_eff_eval]
  · rw [show (rowCells mEx7 dEx7 "t".toList)[8]?
        = some (fmtFixed 2 ((121 : Rat) / 2)) from rfl, fmt_temp_eval]

/-- Cell layout of a data row. -/
lemma rowCells_shape (m : MinerInfo) (d : MinerData) (ts : List Char) :
    rowCells m d ts
      = [m.ip, d.mac.getD "N/A".toList, m.model, m.firmware_version, ts,
          fmtFixed 2 (d.hashrate.getD 0), fmtFixed 0 (d.wattage.getD 0),
          fmtFixed 2 (d.efficiency.getD 0), fmtFixed 2 (d.average_temperature.getD 0)]
        ++ d.hashboards.map (fun b => fmtFixed 2 (b.hashrate.getD 0))
        ++ d.hashboards.map (fun b => fmtFixed 2 (b.board_temperature.getD 0))
        ++ d.fans.map (fun f => fmtFixed 0 (f.rpm.getD 0)) := rfl

/-- C7 (amended): every accepted append writes one row whose numeric
cells have fixed decimal precision — total hashrate, efficiency, average
temperature, per-board hashrates and per-board temperatures all with two
fractional digits, and power and fan RPM as integers with none.  The
cells sit at positions 5-8 of the row followed by the board-hashrate,
board-temperature and fan blocks, in that order. -/
theorem recorder_row_precision (rec : RecordingState) (m : MinerInfo) (d : MinerData)
    (ts : List Char) (hrec : rec.is_recording = true) (hd : m.full_data = some d) :
    ∃ hrc pwc efc tpc bhs bts frs,
      (append_data_point rec m ts).2
        = some ([m.ip, d.mac.getD "N/A".toList, m.model, m.firmware_version, ts,
            hrc, pwc, efc, tpc] ++ bhs ++ bts ++ frs) ∧
      fracDigitCount hrc = 2 ∧ fracDigitCount pwc = 0 ∧
      fracDigitCount efc = 2 ∧ fracDigitCount tpc = 2 ∧
      bhs.length = d.hashboards.length ∧ (∀ c ∈ bhs, fracDigitCount c = 2) ∧
      bts.length = d.hashboards.length ∧ (∀ c ∈ bts, fracDigitCount c = 2) ∧
      frs.length = d.fans.length ∧ (∀ c ∈ frs, fracDigitCount c = 0) := by
  refine ⟨fmtFixed 2 (d.hashrate.getD 0), fmtFixed 0 (d.wattage.getD 0),
    fmtFixed 2 (d.efficiency.getD 0), fmtFixed 2 (d.average_temperature.getD 0),
    d.hashboards.map (fun b => fmtFixed 2 (b.hashrate.getD 0)),
    d.hashboards.map (fun b => fmtFixed 2 (b.board_temperature.getD 0)),
    d.fans.map (fun f => fmtFixed 0 (f.rpm.getD 0)),
    ?_, ?_, ?_, ?_, ?_, ?_, ?_, ?_, ?_, ?_, ?_⟩
  · rw [append_writes_row rec m d ts hrec hd, rowCells_shape]
  · exact fracDigitCount_fmtFixed_pos 2 _ (by decide)
  · exact fracDigitCount_fmtFixed_zero _
  · exact fracDigitCount_fmtFixed_pos 2 _ (by decide)
  · exact fracDigitCount_fmtFixed_pos 2 _ (by decide)
  · exact List.length_map _ _
  · intro c hc
    rcases List.mem_map.mp hc with ⟨b, _, rfl⟩
    exact fracDigitCount_fmtFixed_pos 2 _ (by decide)
  · exact List.length_map _ _
  · intro c hc
    rcases List.mem_map.mp hc with ⟨b, _, rfl⟩
    exact fracDigitCount_fmtFixed_pos 2 _ (by decide)
  · exact List.length_map _ _
  · intro c hc
    rcases List.mem_map.mp hc with ⟨f, _, rfl⟩
    exact fracDigitCount_fmtFixed_zero _

/-- Witness for the amended C7. -/
theorem recorder_row_precision_witness :
    ∃ hrc pwc efc tpc bhs bts frs,
      (append_data_point recW7 mEx7 "t".toList).2
        = some ([mEx7.ip, dEx7.mac.getD "N/A".toList, mEx7.model, mEx7.firmware_version,
            "t".toList, hrc, pwc, efc, tpc] ++ bhs ++ bts ++ frs) ∧
      fracDigitCount hrc = 2 ∧ fracDigitCount pwc = 0 ∧
      fracDigitCount efc = 2 ∧ fracDigitCount tpc = 2 ∧
      bhs.length = dEx7.hashboards.length ∧ (∀ c ∈ bhs, fracDigitCount c = 2) ∧
      bts.length = dEx7.hashboards.length ∧ (∀ c ∈ bts, fracDigitCount c = 2) ∧
      frs.length = dEx7.fans.length ∧ (∀ c ∈ frs, fracDigitCount c = 0) :=
  recorder_row_precision recW7 mEx7 dEx7 "t".toList rfl rfl
